import Mathlib

/-!
Verification development for the goupil gamma-photon Monte Carlo transport
library. The compiled core (transport engine, process samplers, atomic and
material registry) is a Rust extension; the repository sources available here
are the Python examples and interface tests that drive it. The definitions
below therefore embed the core from the system specification, faithful to its
wording, while the inline Python example code (for instance the backward
spectrum sampler of examples/transport/backward.py) is embedded directly.

All numerics use exact rationals (or reals where logarithms are involved);
machine floating point is out of scope for the embedding.
-/

namespace Goupil

/-! ## Transport statuses

Modelled from the spec: `TransportStatus` terminal set is ENERGY_CONSTRAINT,
BOUNDARY, EXIT, ABSORPTION, ENERGY_MIN, STEP_MAX, ERROR; a state still in
flight carries the non-terminal status 0. -/

inductive Status where
  | inFlight
  | energyConstraint
  | boundary
  | exit
  | absorption
  | energyMin
  | stepMax
  | error
deriving DecidableEq, Repr

/-- A status is terminal when it is not the in-flight status 0. -/
def Status.isTerminal : Status → Bool
  | .inFlight => false
  | _ => true

/-- The terminal statuses that are not energy related (neither
`ENERGY_CONSTRAINT` nor `ENERGY_MIN`). -/
def Status.isNonEnergyTerminal : Status → Bool
  | .boundary => true
  | .exit => true
  | .absorption => true
  | .stepMax => true
  | .error => true
  | _ => false

/-! ## Particle states -/

/-- A three-vector over the rationals. -/
structure V3 where
  x : ℚ
  y : ℚ
  z : ℚ
deriving DecidableEq, Repr

/-- Squared Euclidean norm of a three-vector. -/
def V3.normSq (v : V3) : ℚ := v.x * v.x + v.y * v.y + v.z * v.z

/-- Modelled from the spec: `ParticleState` is (position, unit direction,
energy > 0, weight > 0, status); the integer tag and RNG stream index play no
role in the properties below and are omitted. -/
structure State where
  position : V3
  direction : V3
  energy : ℚ
  weight : ℚ
  status : Status
deriving DecidableEq, Repr

/-! ## Transport step model

Modelled from the spec, section 4.G: every loop iteration asks the geometry
and the physics sampler for the result of the current step. We embed these
answers as an `Outcome` record: whether the step crosses or enters the
explicit engine boundary, whether it leaves the outer geometry, and which
interaction (if any) the cross-section machinery sampled at the interaction
site, together with the sampled outgoing energy, direction and the
backward-mode weight factor sigma_total(E)/sigma_adjoint(E'). The engine
consumes one `Outcome` per step, applying the spec's check order:
CHECK_BOUNDARY precedes EXIT, which precedes INTERACT, which precedes
CHECK_ENERGY. -/

inductive Interaction where
  | absorb
  | rayleigh (dir : V3)
  | compton (energy : ℚ) (dir : V3) (weightFactor : ℚ)
deriving DecidableEq, Repr

structure Outcome where
  entersBoundary : Bool
  leavesGeometry : Bool
  interaction : Option Interaction
  displacement : V3
deriving DecidableEq, Repr

/-- Transport regime of the engine. -/
inductive Mode where
  | forward
  | backward
deriving DecidableEq, Repr

/-- Modelled from the spec: the engine configuration relevant here is the
transport mode and the forward low-energy cutoff. -/
structure Engine where
  mode : Mode
  energyMin : ℚ
deriving DecidableEq, Repr

/-- The relative tolerance of the backward energy constraint,
epsilon_E = 10^-6. -/
def epsilonE : ℚ := 1 / 1000000

/-- Modelled from the spec, section 4.G: one iteration of the transport state
machine for a state that is still in flight. Boundary entry is checked first,
then exit from the outer geometry, then the sampled interaction is applied;
after a Compton interaction the energy check runs: forward, E < E_min gives
ENERGY_MIN; backward, E >= E_target * (1 - epsilon_E) gives
ENERGY_CONSTRAINT. `target` is the state's source-energy target (backward
mode). -/
def stepOnce (eng : Engine) (target : ℚ) (s : State) (o : Outcome) : State :=
  if o.entersBoundary then
    { s with status := .boundary }
  else if o.leavesGeometry then
    { s with status := .exit }
  else
    let s₀ := { s with position := o.displacement }
    match o.interaction with
    | none => s₀
    | some .absorb => { s₀ with status := .absorption }
    | some (.rayleigh d) => { s₀ with direction := d }
    | some (.compton e d w) =>
        let s₁ := { s₀ with energy := e, direction := d, weight := s.weight * w }
        match eng.mode with
        | .forward =>
            if e < eng.energyMin then { s₁ with status := .energyMin } else s₁
        | .backward =>
            if target * (1 - epsilonE) ≤ e then
              { s₁ with status := .energyConstraint }
            else s₁

/-- Run the transport loop over a list of step outcomes, stopping as soon as
the status becomes terminal. -/
def run (eng : Engine) (target : ℚ) (s : State) : List Outcome → State
  | [] => s
  | o :: os =>
      if s.status = .inFlight then run eng target (stepOnce eng target s o) os
      else s

/-- Modelled from the spec: `engine.transport` on one state. The outcome list
length is the step cap; a state still in flight when the cap is exhausted is
terminated with STEP_MAX. -/
def transport (eng : Engine) (target : ℚ) (s : State) (os : List Outcome) : State :=
  let f := run eng target s os
  if f.status = .inFlight then { f with status := .stepMax } else f

/-! ## Admissible outcomes

An outcome is admissible for a state when it respects what the spec
guarantees of the geometry and the samplers: sampled directions are unit
vectors, weight factors are strictly positive, the forward Compton kernel is
supported on outgoing energies in (0, E], and the adjoint (backward) kernel
is supported on outgoing energies in [E, infinity). -/

def Interaction.admissibleFor (mode : Mode) (e : ℚ) : Interaction → Bool
  | .absorb => true
  | .rayleigh d => d.normSq == 1
  | .compton e' d w =>
      d.normSq == 1 && 0 < w &&
        (match mode with
         | .forward => 0 < e' && e' ≤ e
         | .backward => e ≤ e')

def Outcome.admissibleFor (mode : Mode) (s : State) (o : Outcome) : Bool :=
  match o.interaction with
  | none => true
  | some i => i.admissibleFor mode s.energy

/-- A whole outcome list is admissible for a starting state when each outcome
is admissible for the state the run has reached when it is consumed. -/
def admissibleTrace (eng : Engine) (target : ℚ) (s : State) : List Outcome → Bool
  | [] => true
  | o :: os =>
      o.admissibleFor eng.mode s &&
        admissibleTrace eng target (stepOnce eng target s o) os

/-- The state invariant of the spec, section 8: positive energy, strictly
positive weight, unit direction within 10^-6 (stated on the real norm). -/
def StateInv (s : State) : Prop :=
  0 < s.energy ∧ 0 < s.weight ∧ |Real.sqrt (s.direction.normSq : ℝ) - 1| ≤ 1 / 1000000

/-! ## Seeded batch transport

Modelled from the spec, sections 4.C and 5: the random stream is a
deterministic function of an explicit seed, and batches are processed with
the stream split deterministically by state index. We model the whole chain
from seed to per-step outcomes as a deterministic oracle: `oracle seed i` is
the outcome stream that the geometry, the tables and the seeded random
stream produce for the state of index `i`. Batch transport maps `transport`
over the batch, pairing each state with its source-energy target. -/

instance : Inhabited State :=
  ⟨⟨⟨0, 0, 0⟩, ⟨0, 0, 1⟩, 1, 1, .inFlight⟩⟩

def transportBatch (eng : Engine) (oracle : ℕ → ℕ → List Outcome) (seed : ℕ)
    (targets : List ℚ) (states : List State) : List State :=
  (List.range states.length).map fun i =>
    transport eng (targets.getD i 0) (states.getD i default) (oracle seed i)

/-! ## Backward spectrum sampling

Embedded from src/examples/transport/backward.py, lines 167-181, which is the
inline implementation of the backward branch of `DiscreteSpectrum.sample`
(the compiled sampler itself is modelled from the spec, section 4.H, and this
inline code). For each state the draw `u1` splits photo-peak from background
with probability alpha, and `u2` is the log-uniform draw used for the
background branch:

    photopeaks = engine.random.uniform01(N) < ALPHA
    states["energy"][photopeaks] = source_energies[photopeaks]
    states["weight"][photopeaks] = 1.0 / ALPHA
    lne = numpy.log(source_energies[background] / ENERGY_MIN)
    energies = ENERGY_MIN * numpy.exp(lne * engine.random.uniform01(lne.size))
    states["energy"][background] = energies
    states["weight"][background] = lne * energies / (1.0 - ALPHA)
-/

structure BackwardSample where
  energy : ℝ
  weight : ℝ
  target : ℝ

/-- One state's backward spectrum sample: final energy, weight, and the
source-energy target returned to the caller. -/
noncomputable def backwardSample (alpha emin source u1 u2 : ℝ) : BackwardSample :=
  if u1 < alpha then
    { energy := source, weight := 1 / alpha, target := source }
  else
    let lne := Real.log (source / emin)
    let e := emin * Real.exp (lne * u2)
    { energy := e, weight := lne * e / (1 - alpha), target := source }

/-- Batch form: each entry of the input list is (source energy, u1, u2). -/
noncomputable def backwardSampleBatch (alpha emin : ℝ) :
    List (ℝ × ℝ × ℝ) → List BackwardSample :=
  List.map fun t => backwardSample alpha emin t.1 t.2.1 t.2.2

/-! ## Compton process configuration

Modelled from the spec, section 6: `method` is Inverse Transform or Rejection
Sampling, `mode` is Direct, Adjoint or Inverse, `model` is Klein-Nishina,
Penelope or Scattering Function, `precision` is a positive number. The
invalid combinations Penelope + Adjoint and Inverse Transform + Penelope
raise `NotImplementedError("bad sampling ...")`; a non-positive precision
raises `ValueError`. Defaults are those asserted by the interface test
(src/docs/tests/test_interface.py, lines 50-54): Rejection Sampling, Direct,
Scattering Function, precision 1.0. -/

inductive CMethod where
  | inverseTransform
  | rejectionSampling
deriving DecidableEq, Repr

inductive CMode where
  | adjoint
  | direct
  | inverse
deriving DecidableEq, Repr

inductive CModel where
  | kleinNishina
  | penelope
  | scatteringFunction
deriving DecidableEq, Repr

inductive PyError where
  | notImplemented (msg : String)
  | valueError (msg : String)
deriving DecidableEq, Repr

structure ComptonProcess where
  method : CMethod
  mode : CMode
  model : CModel
  precision : ℚ
deriving DecidableEq, Repr

/-- Modelled from the spec: the `ComptonProcess` constructor. -/
def comptonProcessNew (method : CMethod) (mode : CMode) (model : CModel)
    (precision : ℚ) : Except PyError ComptonProcess :=
  if (model = .penelope ∧ mode = .adjoint) ∨
      (method = .inverseTransform ∧ model = .penelope) then
    .error (.notImplemented "bad sampling (unsupported method, mode or model)")
  else if precision ≤ 0 then
    .error (.valueError "bad precision (expected a positive value)")
  else
    .ok ⟨method, mode, model, precision⟩

/-- The no-argument constructor call, with the documented defaults. -/
def comptonProcessDefault : Except PyError ComptonProcess :=
  comptonProcessNew .rejectionSampling .direct .scatteringFunction 1

/-! ## Atomic elements

Modelled from the spec, section 4.A: a fixed periodic-table dataset with
Z in [1, 118]; `AtomicElement(Z)` fails with a BAD_Z error whose message
starts with "bad atomic number" outside that range. The molar masses are the
standard atomic weights (g/mol), as shipped with the library's dataset. -/

def aWeights : List ℕ :=
  [10080, 40026, 69400, 90122, 108100, 120110, 140070, 159990, 189980,
   201800, 229900, 243050, 269820, 280850, 309740, 320600, 354500, 399480,
   390980, 400780, 449560, 478670, 509420, 519960, 549380, 558450, 589330,
   586930, 635460, 653800, 697230, 726300, 749220, 789710, 799040, 837980,
   854680, 876200, 889060, 912240, 929060, 959500, 980000, 1010700, 1029100,
   1064200, 1078700, 1124100, 1148200, 1187100, 1217600, 1276000, 1269000,
   1312900, 1329100, 1373300, 1389100, 1401200, 1409100, 1442400, 1450000,
   1503600, 1519600, 1572500, 1589300, 1625000, 1649300, 1672600, 1689300,
   1730500, 1749700, 1784900, 1809500, 1838400, 1862100, 1902300, 1922200,
   1950800, 1969700, 2005900, 2043800, 2072000, 2089800, 2090000, 2100000,
   2220000, 2230000, 2260000, 2270000, 2320400, 2310400, 2380300, 2370000,
   2440000, 2430000, 2470000, 2470000, 2510000, 2520000, 2570000, 2580000,
   2590000, 2620000, 2670000, 2680000, 2690000, 2700000, 2690000, 2780000,
   2810000, 2820000, 2850000, 2860000, 2890000, 2900000, 2930000, 2940000,
   2940000]

structure AtomicElement where
  Z : ℕ
  A : ℚ
deriving DecidableEq, Repr

/-- Modelled from the spec: the `AtomicElement(Z)` constructor. The dataset
stores molar masses in units of 10^-4 g/mol; `A` is in g/mol. -/
def atomicElement (z : ℕ) : Except String AtomicElement :=
  if 1 ≤ z ∧ z ≤ 118 then
    .ok ⟨z, (aWeights.getD (z - 1) 0 : ℚ) / 10000⟩
  else
    .error ("bad atomic number (expected a value in [1, 118], found " ++
      toString z ++ ")")

/-! ## Material definitions

Modelled from the spec, sections 3 and 4.A: a material resolves to a
canonical element-mole vector over Z in [1, 118]; the molar mass is the
composition-weighted sum of the element molar masses. A composition given by
mass fractions of sub-materials is converted to moles via the sub-material
molar masses; the canonical scale is fixed so that the molar mass of the
mixture is the harmonic mean of the sub-material molar masses weighted by
the normalized mass fractions (one formula unit of the mixture weighs its
molar mass, exactly as for a formula-defined material). -/

abbrev MoleVec := Fin 119 → ℚ

/-- Molar mass of element of index z (0 is unused padding). -/
def atomicA (z : Fin 119) : ℚ :=
  if z.val = 0 then 0 else (aWeights.getD (z.val - 1) 0 : ℚ) / 10000

structure MaterialDef where
  comp : MoleVec

/-- Molar mass: sum of mole counts times element molar masses. -/
def MaterialDef.mass (m : MaterialDef) : ℚ :=
  ∑ z : Fin 119, m.comp z * atomicA z

/-- Modelled from the spec: the `MaterialDefinition` constructor from an
explicit mole composition list. An empty composition (the no-argument
constructor) is accepted and yields the empty material; a non-empty
composition must have strictly positive fractions with a non-zero sum, else
a BAD_COMPOSITION error is raised. -/
def materialDefinition (comp : List (ℚ × Fin 119)) : Except String MaterialDef :=
  if comp.isEmpty then
    .ok ⟨fun _ => 0⟩
  else if comp.any (fun p => p.1 ≤ 0) then
    .error "bad composition (non-positive fraction)"
  else if ((comp.map fun p => p.1).sum = 0 : Bool) then
    .error "bad composition (zero sum)"
  else
    .ok ⟨fun z => ((comp.filter fun p => p.2 = z).map fun p => p.1).sum⟩

/-- Modelled from the spec: resolution of a composition given by mass
fractions `w i` of sub-materials `sub i`. Per normalized mass fraction, the
moles of each element contributed per gram are (w i / W) / mass i * comp i;
the canonical scale multiplies by the mixture molar mass 1 / S where
S = sum over i of (w i / W) / mass i. -/
def massMixture (n : ℕ) (w : Fin n → ℚ) (sub : Fin n → MaterialDef) : MaterialDef :=
  let W : ℚ := ∑ i, w i
  let S : ℚ := ∑ i, w i / (W * (sub i).mass)
  ⟨fun z => (1 / S) * ∑ i, w i / (W * (sub i).mass) * (sub i).comp z⟩

/-- The canonical mole vectors of two materials agree within tolerance eps
(the spec compares materials with eps = 10^-12). -/
def compClose (eps : ℚ) (a b : MaterialDef) : Prop :=
  ∀ z, |a.comp z - b.comp z| ≤ eps

/-- Water, as the canonical mole vector 2 H + 1 O (the `H2O` and `Water`
materials of the interface test). -/
def waterDef : MaterialDef :=
  ⟨fun z => if z.val = 1 then 2 else if z.val = 8 then 1 else 0⟩

/-! ## Theorems -/

/-- C9: `ComptonProcess()` constructed with no arguments has method
"Rejection Sampling", mode "Direct", model "Scattering Function" and
precision 1.0. -/
theorem comptonProcess_defaults :
    ∃ p, comptonProcessDefault = Except.ok p ∧
      p.method = CMethod.rejectionSampling ∧ p.mode = CMode.direct ∧
      p.model = CModel.scatteringFunction ∧ p.precision = 1 := by
  refine ⟨⟨.rejectionSampling, .direct, .scatteringFunction, 1⟩, ?_, rfl, rfl, rfl, rfl⟩
  have h1 : ¬((CModel.scatteringFunction = CModel.penelope ∧
      CMode.direct = CMode.adjoint) ∨
      (CMethod.rejectionSampling = CMethod.inverseTransform ∧
        CModel.scatteringFunction = CModel.penelope)) := by
    rintro (⟨h, -⟩ | ⟨-, h⟩) <;> exact CModel.noConfusion h
  have h2 : ¬((1 : ℚ) ≤ 0) := by norm_num
  rw [comptonProcessDefault, comptonProcessNew, if_neg h1, if_neg h2]

/-- C3: for every (method, mode, model) configuration, the `ComptonProcess`
constructor either succeeds, storing exactly the given method, mode and
model, or raises `NotImplementedError` with a message starting with
"bad sampling"; the combinations Penelope + Adjoint and
Inverse Transform + Penelope always raise it. -/
theorem comptonProcess_config :
    (∀ (method : CMethod) (mode : CMode) (model : CModel),
      (∃ p, comptonProcessNew method mode model 1 = Except.ok p ∧
        p.method = method ∧ p.mode = mode ∧ p.model = model) ∨
      (∃ rest, comptonProcessNew method mode model 1 =
        Except.error (PyError.notImplemented ("bad sampling" ++ rest)))) ∧
    (∀ method : CMethod, ∃ rest, comptonProcessNew method .adjoint .penelope 1 =
      Except.error (PyError.notImplemented ("bad sampling" ++ rest))) ∧
    (∀ mode : CMode, ∃ rest, comptonProcessNew .inverseTransform mode .penelope 1 =
      Except.error (PyError.notImplemented ("bad sampling" ++ rest))) := by
  have herr : ∀ (method : CMethod) (mode : CMode) (model : CModel),
      ((model = CModel.penelope ∧ mode = CMode.adjoint) ∨
        (method = CMethod.inverseTransform ∧ model = CModel.penelope)) →
      ∃ rest, comptonProcessNew method mode model 1 =
        Except.error (PyError.notImplemented ("bad sampling" ++ rest)) := by
    intro method mode model h
    exact ⟨" (unsupported method, mode or model)", by
      rw [comptonProcessNew, if_pos h]
      rfl⟩
  refine ⟨?_, ?_, ?_⟩
  · intro method mode model
    by_cases h : (model = CModel.penelope ∧ mode = CMode.adjoint) ∨
        (method = CMethod.inverseTransform ∧ model = CModel.penelope)
    · exact Or.inr (herr method mode model h)
    · refine Or.inl ⟨⟨method, mode, model, 1⟩, ?_, rfl, rfl, rfl⟩
      rw [comptonProcessNew, if_neg h, if_neg (by norm_num : ¬((1 : ℚ) ≤ 0))]
  · intro method
    exact herr method .adjoint .penelope (Or.inl ⟨rfl, rfl⟩)
  · intro mode
    exact herr .inverseTransform mode .penelope (Or.inr ⟨rfl, rfl⟩)

/-- C10: `MaterialDefinition()` with no arguments succeeds, yielding a
material with empty composition and molar mass 0, instead of a
BAD_COMPOSITION error. -/
theorem materialDefinition_empty :
    ∃ m, materialDefinition [] = Except.ok m ∧ m.mass = 0 := by
  refine ⟨⟨fun _ => 0⟩, rfl, ?_⟩
  simp [MaterialDef.mass]

/-- C8: `AtomicElement(Z)` succeeds for every Z from 1 to 100, with the Z
attribute equal to Z and molar mass A positive and different from Z, and
fails with a message starting with "bad atomic number" for Z = 0 and
Z = 119. -/
theorem atomicElement_range :
    (∀ z : ℕ, 1 ≤ z → z ≤ 100 →
      ∃ e, atomicElement z = Except.ok e ∧ e.Z = z ∧ 0 < e.A ∧ e.A ≠ (z : ℚ)) ∧
    (∀ z : ℕ, z = 0 ∨ z = 119 →
      ∃ rest, atomicElement z = Except.error ("bad atomic number" ++ rest)) := by
  constructor
  · intro z h1 h2
    have hz : z ≤ 118 := le_trans h2 (by norm_num)
    have key : 0 < aWeights.getD (z - 1) 0 ∧
        aWeights.getD (z - 1) 0 ≠ 10000 * z := by
      have h : ∀ y, y < 101 → 1 ≤ y →
          0 < aWeights.getD (y - 1) 0 ∧ aWeights.getD (y - 1) 0 ≠ 10000 * y := by
        decide
      exact h z (by omega) h1
    refine ⟨⟨z, (aWeights.getD (z - 1) 0 : ℚ) / 10000⟩, ?_, rfl, ?_, ?_⟩
    · rw [atomicElement, if_pos ⟨h1, hz⟩]
    · exact div_pos (by exact_mod_cast key.1) (by norm_num)
    · intro hcon
      rw [div_eq_iff (by norm_num : (10000 : ℚ) ≠ 0)] at hcon
      have hnat : aWeights.getD (z - 1) 0 = z * 10000 := by exact_mod_cast hcon
      exact key.2 (by omega)
  · intro z hz
    rcases hz with rfl | rfl
    · exact ⟨" (expected a value in [1, 118], found 0)", rfl⟩
    · exact ⟨" (expected a value in [1, 118], found 119)", rfl⟩

/-- C5: two transport calls with the same seed, the same input batch and the
same geometry (outcome oracle) produce identical output batches: the model
of the engine is a deterministic function of these inputs and of nothing
else. -/
theorem transport_deterministic (eng : Engine)
    (oracle₁ oracle₂ : ℕ → ℕ → List Outcome) (seed₁ seed₂ : ℕ)
    (targets₁ targets₂ : List ℚ) (states₁ states₂ : List State)
    (horacle : oracle₁ = oracle₂) (hseed : seed₁ = seed₂)
    (htargets : targets₁ = targets₂) (hstates : states₁ = states₂) :
    transportBatch eng oracle₁ seed₁ targets₁ states₁ =
      transportBatch eng oracle₂ seed₂ targets₂ states₂ := by
  subst horacle hseed htargets hstates
  rfl

/-- Witness for C5 at a concrete seed, batch and oracle. -/
theorem transport_deterministic_witness :
    transportBatch ⟨.forward, 1 / 100⟩ (fun _ _ => []) 42 [1] [default] =
      transportBatch ⟨.forward, 1 / 100⟩ (fun _ _ => []) 42 [1] [default] :=
  transport_deterministic ⟨.forward, 1 / 100⟩ _ _ _ _ _ _ _ _ rfl rfl rfl rfl

/-- Witness for C8 at Z = 26 (iron) and at the failing Z = 119. -/
theorem atomicElement_range_witness :
    (∃ e, atomicElement 26 = Except.ok e ∧ e.Z = 26 ∧ 0 < e.A ∧ e.A ≠ (26 : ℚ)) ∧
    (∃ rest, atomicElement 119 = Except.error ("bad atomic number" ++ rest)) :=
  ⟨atomicElement_range.1 26 (by decide) (by decide),
   atomicElement_range.2 119 (Or.inr rfl)⟩

/-! ### Transport-loop lemmas -/

theorem run_cons (eng : Engine) (t : ℚ) (s : State) (o : Outcome) (os : List Outcome) :
    run eng t s (o :: os) =
      if s.status = .inFlight then run eng t (stepOnce eng t s o) os else s := rfl

theorem run_frozen (eng : Engine) (t : ℚ) (s : State) (h : s.status ≠ .inFlight) :
    ∀ os, run eng t s os = s
  | [] => rfl
  | _ :: _ => by rw [run_cons, if_neg h]

theorem Status.isTerminal_iff (c : Status) : c.isTerminal = true ↔ c ≠ .inFlight := by
  cases c <;> simp [Status.isTerminal]

/-- Decomposition of admissibility for a Compton outcome. -/
theorem admissible_compton (mode : Mode) (e e' : ℚ) (d : V3) (w : ℚ)
    (h : Interaction.admissibleFor mode e (.compton e' d w) = true) :
    d.normSq = 1 ∧ 0 < w ∧
      (mode = .forward → 0 < e' ∧ e' ≤ e) ∧ (mode = .backward → e ≤ e') := by
  cases mode
  all_goals
    simp only [Interaction.admissibleFor, Bool.and_eq_true, beq_iff_eq,
      decide_eq_true_eq] at h
  · exact ⟨h.1.1, h.1.2, fun _ => h.2, by rintro ⟨⟩⟩
  · exact ⟨h.1.1, h.1.2, by rintro ⟨⟩, fun _ => h.2⟩

/-- In backward mode, an admissible step never decreases the energy. -/
theorem stepOnce_energy_le (eng : Engine) (t : ℚ) (s : State) (o : Outcome)
    (hmode : eng.mode = .backward)
    (hadm : Outcome.admissibleFor eng.mode s o = true) :
    s.energy ≤ (stepOnce eng t s o).energy := by
  obtain ⟨eb, lg, int, disp⟩ := o
  cases eb
  · cases lg
    · match int with
      | none => simp [stepOnce]
      | some .absorb => simp [stepOnce]
      | some (.rayleigh d) => simp [stepOnce]
      | some (.compton e' d w) =>
          have h := admissible_compton eng.mode s.energy e' d w
            (by simpa [Outcome.admissibleFor] using hadm)
          have he : s.energy ≤ e' := h.2.2.2 hmode
          simpa [stepOnce, hmode, apply_ite State.energy] using he
    · simp [stepOnce]
  · simp [stepOnce]

/-- An admissible step preserves the state invariant. -/
theorem stepOnce_inv (eng : Engine) (t : ℚ) (s : State) (o : Outcome)
    (hadm : Outcome.admissibleFor eng.mode s o = true) (hinv : StateInv s) :
    StateInv (stepOnce eng t s o) := by
  obtain ⟨he, hw, hd⟩ := hinv
  have hunit : ∀ d : V3, d.normSq = 1 →
      |Real.sqrt ((d.normSq : ℚ) : ℝ) - 1| ≤ 1 / 1000000 := by
    intro d hn
    rw [hn]
    simp [Real.sqrt_one]
  obtain ⟨eb, lg, int, disp⟩ := o
  cases eb
  · cases lg
    · match int with
      | none => exact ⟨he, hw, hd⟩
      | some .absorb => exact ⟨he, hw, hd⟩
      | some (.rayleigh d) =>
          have hn : d.normSq = 1 := by
            simpa [Outcome.admissibleFor, Interaction.admissibleFor] using hadm
          exact ⟨he, hw, hunit d hn⟩
      | some (.compton e' d w) =>
          have h := admissible_compton eng.mode s.energy e' d w
            (by simpa [Outcome.admissibleFor] using hadm)
          have he' : 0 < e' := by
            rcases hm : eng.mode with _ | _
            · exact (h.2.2.1 hm).1
            · exact lt_of_lt_of_le he (h.2.2.2 hm)
          have hw' : 0 < s.weight * w := mul_pos hw h.2.1
          have hd' := hunit d h.1
          refine ⟨?_, ?_, ?_⟩
          all_goals
            simp only [stepOnce]
            split
          any_goals simp_all
          all_goals
            rcases eng.mode with _ | _
            all_goals simp only []
            all_goals split
          all_goals simp_all
    · exact ⟨he, hw, hd⟩
  · exact ⟨he, hw, hd⟩

/-- The statuses a single step can produce from an in-flight state. -/
theorem stepOnce_status_mem (eng : Engine) (t : ℚ) (s : State) (o : Outcome)
    (h : s.status = .inFlight) :
    (stepOnce eng t s o).status = .inFlight ∨
    (stepOnce eng t s o).status = .boundary ∨
    (stepOnce eng t s o).status = .exit ∨
    (stepOnce eng t s o).status = .absorption ∨
    ((stepOnce eng t s o).status = .energyMin ∧ eng.mode = .forward) ∨
    ((stepOnce eng t s o).status = .energyConstraint ∧ eng.mode = .backward) := by
  obtain ⟨eb, lg, int, disp⟩ := o
  cases eb
  · cases lg
    · match int with
      | none => left; simpa [stepOnce] using h
      | some .absorb => right; right; right; left; simp [stepOnce]
      | some (.rayleigh d) => left; simpa [stepOnce] using h
      | some (.compton e' d w) =>
          rcases hm : eng.mode with _ | _
          all_goals simp only [stepOnce, hm, Bool.false_eq_true, if_false]
          · split
            · right; right; right; right; left; exact ⟨rfl, trivial⟩
            · left; simpa using h
          · split
            · right; right; right; right; right; exact ⟨rfl, trivial⟩
            · left; simpa using h
    · right; right; left; simp [stepOnce]
  · right; left; simp [stepOnce]

/-- The only step that sets ENERGY_CONSTRAINT is a backward Compton whose
outgoing energy meets the target threshold, and it stores that energy. -/
theorem stepOnce_ec_energy (eng : Engine) (t : ℚ) (s : State) (o : Outcome)
    (h : s.status = .inFlight)
    (hec : (stepOnce eng t s o).status = .energyConstraint) :
    t * (1 - epsilonE) ≤ (stepOnce eng t s o).energy := by
  obtain ⟨eb, lg, int, disp⟩ := o
  cases eb
  · cases lg
    · match int with
      | none => rw [stepOnce] at hec ⊢; simp_all
      | some .absorb => rw [stepOnce] at hec; simp_all
      | some (.rayleigh d) => rw [stepOnce] at hec ⊢; simp_all
      | some (.compton e' d w) =>
          rcases hm : eng.mode with _ | _
          all_goals rw [stepOnce] at hec ⊢
          all_goals simp only [hm, Bool.false_eq_true, if_false] at hec ⊢
          · split at hec <;> simp_all
          · split at hec <;> simp_all
    · rw [stepOnce] at hec; simp_all
  · rw [stepOnce] at hec; simp_all

/-- Admissibility restricts to every prefix of the outcome list. -/
theorem admissibleTrace_take (eng : Engine) (t : ℚ) :
    ∀ (os : List Outcome) (s : State) (n : ℕ),
      admissibleTrace eng t s os = true →
      admissibleTrace eng t s (os.take n) = true
  | [], _, n, _ => by simp [admissibleTrace]
  | _ :: _, _, 0, _ => rfl
  | o :: os, s, n + 1, ha => by
      simp only [List.take_succ_cons, admissibleTrace, Bool.and_eq_true] at ha ⊢
      exact ⟨ha.1, admissibleTrace_take eng t os _ n ha.2⟩

/-- The state invariant holds after the whole run. -/
theorem run_inv (eng : Engine) (t : ℚ) :
    ∀ (os : List Outcome) (s : State), StateInv s →
      admissibleTrace eng t s os = true → StateInv (run eng t s os)
  | [], _, hinv, _ => hinv
  | o :: os, s, hinv, ha => by
      have ha' : Outcome.admissibleFor eng.mode s o = true ∧
          admissibleTrace eng t (stepOnce eng t s o) os = true := by
        simpa [admissibleTrace, Bool.and_eq_true] using ha
      rw [run_cons]
      split
      · exact run_inv eng t os _ (stepOnce_inv eng t s o ha'.1 hinv) ha'.2
      · exact hinv

/-- In backward mode the energy never decreases along the run. -/
theorem run_energy_le (eng : Engine) (t : ℚ) (hmode : eng.mode = .backward) :
    ∀ (os : List Outcome) (s : State),
      admissibleTrace eng t s os = true →
      s.energy ≤ (run eng t s os).energy
  | [], _, _ => le_refl _
  | o :: os, s, ha => by
      have ha' : Outcome.admissibleFor eng.mode s o = true ∧
          admissibleTrace eng t (stepOnce eng t s o) os = true := by
        simpa [admissibleTrace, Bool.and_eq_true] using ha
      rw [run_cons]
      split
      · exact le_trans (stepOnce_energy_le eng t s o hmode ha'.1)
          (run_energy_le eng t hmode os _ ha'.2)
      · exact le_refl _

/-- In backward mode the run ends in flight or with one of BOUNDARY, EXIT,
ABSORPTION, ENERGY_CONSTRAINT. -/
theorem run_status_backward (eng : Engine) (t : ℚ) (hmode : eng.mode = .backward) :
    ∀ (os : List Outcome) (s : State), s.status = .inFlight →
      (run eng t s os).status = .inFlight ∨
      (run eng t s os).status = .boundary ∨
      (run eng t s os).status = .exit ∨
      (run eng t s os).status = .absorption ∨
      (run eng t s os).status = .energyConstraint
  | [], s, h => Or.inl h
  | o :: os, s, h => by
      rw [run_cons, if_pos h]
      rcases stepOnce_status_mem eng t s o h with h1 | h1 | h1 | h1 | ⟨h1, hf⟩ | ⟨h1, _⟩
      · exact run_status_backward eng t hmode os _ h1
      · rw [run_frozen eng t _ (by rw [h1]; intro hcon; cases hcon)]
        exact Or.inr (Or.inl h1)
      · rw [run_frozen eng t _ (by rw [h1]; intro hcon; cases hcon)]
        exact Or.inr (Or.inr (Or.inl h1))
      · rw [run_frozen eng t _ (by rw [h1]; intro hcon; cases hcon)]
        exact Or.inr (Or.inr (Or.inr (Or.inl h1)))
      · rw [hmode] at hf; cases hf
      · rw [run_frozen eng t _ (by rw [h1]; intro hcon; cases hcon)]
        exact Or.inr (Or.inr (Or.inr (Or.inr h1)))

/-- If the run ends with ENERGY_CONSTRAINT, the stored energy meets the
target threshold. -/
theorem run_ec_energy (eng : Engine) (t : ℚ) (hmode : eng.mode = .backward) :
    ∀ (os : List Outcome) (s : State), s.status = .inFlight →
      (run eng t s os).status = .energyConstraint →
      t * (1 - epsilonE) ≤ (run eng t s os).energy
  | [], s, h, hec => by rw [run] at hec; rw [h] at hec; cases hec
  | o :: os, s, h, hec => by
      rw [run_cons, if_pos h] at hec ⊢
      by_cases h1 : (stepOnce eng t s o).status = .inFlight
      · exact run_ec_energy eng t hmode os _ h1 hec
      · rw [run_frozen eng t _ h1] at hec ⊢
        exact stepOnce_ec_energy eng t s o h hec

/-- C4: after every transport step and after transport returns, the
direction is a unit vector within 10^-6, the energy and the weight are
strictly positive, and the returned status is terminal. -/
theorem state_invariants (eng : Engine) (target : ℚ) (s : State) (os : List Outcome)
    (hinv : StateInv s) (ha : admissibleTrace eng target s os = true) :
    (∀ n, StateInv (run eng target s (os.take n))) ∧
    StateInv (transport eng target s os) ∧
    (transport eng target s os).status.isTerminal = true := by
  refine ⟨?_, ?_, ?_⟩
  · intro n
    exact run_inv eng target (os.take n) s hinv
      (admissibleTrace_take eng target os s n ha)
  · have h := run_inv eng target os s hinv ha
    simp only [transport]
    split
    · exact h
    · exact h
  · simp only [transport]
    split
    · rfl
    · rename_i hne
      rw [Status.isTerminal_iff]
      exact hne

/-- Witness for C4: a forward state terminated by the explicit boundary at
the first step. -/
theorem state_invariants_witness :
    (∀ n, StateInv (run ⟨.forward, 1 / 100⟩ 1
      ⟨⟨0, 0, 0⟩, ⟨0, 0, 1⟩, 1, 1, .inFlight⟩
      ([⟨true, false, none, ⟨0, 0, 0⟩⟩].take n))) ∧
    StateInv (transport ⟨.forward, 1 / 100⟩ 1
      ⟨⟨0, 0, 0⟩, ⟨0, 0, 1⟩, 1, 1, .inFlight⟩ [⟨true, false, none, ⟨0, 0, 0⟩⟩]) ∧
    (transport ⟨.forward, 1 / 100⟩ 1
      ⟨⟨0, 0, 0⟩, ⟨0, 0, 1⟩, 1, 1, .inFlight⟩
      [⟨true, false, none, ⟨0, 0, 0⟩⟩]).status.isTerminal = true :=
  state_invariants ⟨.forward, 1 / 100⟩ 1 ⟨⟨0, 0, 0⟩, ⟨0, 0, 1⟩, 1, 1, .inFlight⟩
    [⟨true, false, none, ⟨0, 0, 0⟩⟩]
    ⟨by norm_num, by norm_num, by norm_num [V3.normSq, Real.sqrt_one]⟩ rfl

/-- C1: in backward mode, the energy is monotonically non-decreasing along
the trajectory; a final ENERGY_CONSTRAINT status implies the energy reached
E_target * (1 - epsilon_E); any other final status is a non-energy terminal;
and an in-flight state whose step is an interaction with a Compton energy at
or above the threshold terminates with ENERGY_CONSTRAINT there. -/
theorem backward_energy_constraint (eng : Engine) (target : ℚ) (s : State)
    (os : List Outcome) (hmode : eng.mode = .backward) (hs : s.status = .inFlight)
    (ha : admissibleTrace eng target s os = true) :
    (∀ n, s.energy ≤ (run eng target s (os.take n)).energy) ∧
    ((transport eng target s os).status = .energyConstraint →
      target * (1 - epsilonE) ≤ (transport eng target s os).energy) ∧
    ((transport eng target s os).status ≠ .energyConstraint →
      (transport eng target s os).status.isNonEnergyTerminal = true) ∧
    (∀ (s₂ : State) (o : Outcome) (e : ℚ) (d : V3) (w : ℚ),
      s₂.status = .inFlight → o.entersBoundary = false → o.leavesGeometry = false →
      o.interaction = some (.compton e d w) → target * (1 - epsilonE) ≤ e →
      (stepOnce eng target s₂ o).status = .energyConstraint) := by
  refine ⟨?_, ?_, ?_, ?_⟩
  · intro n
    exact run_energy_le eng target hmode (os.take n) s
      (admissibleTrace_take eng target os s n ha)
  · simp only [transport]
    split
    · intro hcon; cases hcon
    · intro hec
      exact run_ec_energy eng target hmode os s hs hec
  · simp only [transport]
    split
    · intro _; rfl
    · rename_i hne
      intro hnec
      rcases run_status_backward eng target hmode os s hs with h | h | h | h | h
      · exact absurd h hne
      · rw [h]; rfl
      · rw [h]; rfl
      · rw [h]; rfl
      · exact absurd h hnec
  · intro s₂ o e d w _ heb hlg hint hth
    obtain ⟨eb, lg, int, disp⟩ := o
    simp only at heb hlg hint
    subst heb hlg hint
    simp only [stepOnce, Bool.false_eq_true, if_false, hmode]
    rw [if_pos hth]

/-- Witness for C1: a backward state whose single step is an admissible
Compton raising the energy from 1 to 2, at target 2. -/
theorem backward_energy_constraint_witness :
    (∀ n, (1 : ℚ) ≤ (run ⟨.backward, 0⟩ 2
      ⟨⟨0, 0, 0⟩, ⟨0, 0, 1⟩, 1, 1, .inFlight⟩
      ([⟨false, false, some (.compton 2 ⟨0, 0, 1⟩ 1), ⟨0, 0, 0⟩⟩].take n)).energy) ∧
    ((transport ⟨.backward, 0⟩ 2 ⟨⟨0, 0, 0⟩, ⟨0, 0, 1⟩, 1, 1, .inFlight⟩
      [⟨false, false, some (.compton 2 ⟨0, 0, 1⟩ 1), ⟨0, 0, 0⟩⟩]).status =
        .energyConstraint →
      2 * (1 - epsilonE) ≤ (transport ⟨.backward, 0⟩ 2
        ⟨⟨0, 0, 0⟩, ⟨0, 0, 1⟩, 1, 1, .inFlight⟩
        [⟨false, false, some (.compton 2 ⟨0, 0, 1⟩ 1), ⟨0, 0, 0⟩⟩]).energy) ∧
    ((transport ⟨.backward, 0⟩ 2 ⟨⟨0, 0, 0⟩, ⟨0, 0, 1⟩, 1, 1, .inFlight⟩
      [⟨false, false, some (.compton 2 ⟨0, 0, 1⟩ 1), ⟨0, 0, 0⟩⟩]).status ≠
        .energyConstraint →
      (transport ⟨.backward, 0⟩ 2 ⟨⟨0, 0, 0⟩, ⟨0, 0, 1⟩, 1, 1, .inFlight⟩
        [⟨false, false, some (.compton 2 ⟨0, 0, 1⟩ 1), ⟨0, 0, 0⟩⟩]
        ).status.isNonEnergyTerminal = true) ∧
    (∀ (s₂ : State) (o : Outcome) (e : ℚ) (d : V3) (w : ℚ),
      s₂.status = .inFlight → o.entersBoundary = false → o.leavesGeometry = false →
      o.interaction = some (.compton e d w) → 2 * (1 - epsilonE) ≤ e →
      (stepOnce ⟨.backward, 0⟩ 2 s₂ o).status = .energyConstraint) :=
  backward_energy_constraint ⟨.backward, 0⟩ 2
    ⟨⟨0, 0, 0⟩, ⟨0, 0, 1⟩, 1, 1, .inFlight⟩
    [⟨false, false, some (.compton 2 ⟨0, 0, 1⟩ 1), ⟨0, 0, 0⟩⟩] rfl rfl
    (by norm_num [admissibleTrace, Outcome.admissibleFor,
      Interaction.admissibleFor, V3.normSq])

/-- Closed form of the status produced by a single step. -/
theorem stepOnce_status_spec (eng : Engine) (t : ℚ) (s : State) (o : Outcome) :
    (stepOnce eng t s o).status =
      if o.entersBoundary then .boundary
      else if o.leavesGeometry then .exit
      else
        match o.interaction with
        | none => s.status
        | some .absorb => .absorption
        | some (.rayleigh _) => s.status
        | some (.compton e _ _) =>
            match eng.mode with
            | .forward => if e < eng.energyMin then .energyMin else s.status
            | .backward =>
                if t * (1 - epsilonE) ≤ e then .energyConstraint else s.status := by
  obtain ⟨eb, lg, int, disp⟩ := o
  cases eb
  · cases lg
    · match int with
      | none => rfl
      | some .absorb => rfl
      | some (.rayleigh d) => rfl
      | some (.compton e' d w) =>
          rcases hm : eng.mode with _ | _
          all_goals simp only [stepOnce, hm, Bool.false_eq_true, if_false]
          all_goals split <;> rfl
    · rfl
  · rfl

/-- A step yields BOUNDARY exactly when it enters the explicit boundary. -/
theorem stepOnce_boundary_iff (eng : Engine) (t : ℚ) (s : State) (o : Outcome)
    (h : s.status = .inFlight) :
    (stepOnce eng t s o).status = .boundary ↔ o.entersBoundary = true := by
  rw [stepOnce_status_spec]
  obtain ⟨eb, lg, int, disp⟩ := o
  cases eb
  · cases lg
    · match int with
      | none => simp [h]
      | some .absorb => simp
      | some (.rayleigh d) => simp [h]
      | some (.compton e' d w) =>
          rcases hm : eng.mode with _ | _
          all_goals simp only [hm, Bool.false_eq_true, if_false]
          all_goals split <;> simp [h]
    · simp
  · simp

/-- A step yields EXIT exactly when it leaves the outer geometry without
entering the explicit boundary: the boundary check comes first, and both
come before any interaction. -/
theorem stepOnce_exit_iff (eng : Engine) (t : ℚ) (s : State) (o : Outcome)
    (h : s.status = .inFlight) :
    (stepOnce eng t s o).status = .exit ↔
      (o.entersBoundary = false ∧ o.leavesGeometry = true) := by
  rw [stepOnce_status_spec]
  obtain ⟨eb, lg, int, disp⟩ := o
  cases eb
  · cases lg
    · match int with
      | none => simp [h]
      | some .absorb => simp
      | some (.rayleigh d) => simp [h]
      | some (.compton e' d w) =>
          rcases hm : eng.mode with _ | _
          all_goals simp only [hm, Bool.false_eq_true, if_false]
          all_goals split <;> simp [h]
    · simp
  · simp

/-- Characterization of a terminal status after transport: it is reached
exactly when some step, taken from a still in-flight state, produces it. -/
theorem transport_status_iff (eng : Engine) (t : ℚ) (c : Status)
    (Pb : Outcome → Bool) (hc1 : c ≠ .inFlight) (hc2 : c ≠ .stepMax)
    (hstep : ∀ (s : State) (o : Outcome), s.status = .inFlight →
      ((stepOnce eng t s o).status = c ↔ Pb o = true)) :
    ∀ (os : List Outcome) (s : State), s.status = .inFlight →
      ((transport eng t s os).status = c ↔
        ∃ (n : ℕ) (hn : n < os.length),
          (run eng t s (os.take n)).status = .inFlight ∧
          Pb (os.get ⟨n, hn⟩) = true)
  | [], s, hs => by
      constructor
      · intro hcon
        exfalso
        simp only [transport, run] at hcon
        rw [if_pos hs] at hcon
        exact hc2 hcon.symm
      · rintro ⟨n, hn, -⟩
        exact absurd hn (by simp)
  | o :: os, s, hs => by
      have hstep1 := hstep s o hs
      by_cases h1 : (stepOnce eng t s o).status = .inFlight
      · have ih := transport_status_iff eng t c Pb hc1 hc2 hstep os
          (stepOnce eng t s o) h1
        have heq : transport eng t s (o :: os) =
            transport eng t (stepOnce eng t s o) os := by
          simp only [transport, run_cons, if_pos hs]
        rw [heq, ih]
        constructor
        · rintro ⟨n, hn, hrun, hp⟩
          refine ⟨n + 1, by simpa using Nat.succ_lt_succ hn, ?_, ?_⟩
          · rw [List.take_succ_cons, run_cons, if_pos hs]
            exact hrun
          · simpa using hp
        · rintro ⟨n, hn, hrun, hp⟩
          cases n with
          | zero =>
              exfalso
              have hcon := hstep1.mpr (by simpa using hp)
              rw [h1] at hcon
              exact hc1 hcon.symm
          | succ m =>
              have hm : m < os.length := by simpa using hn
              refine ⟨m, hm, ?_, ?_⟩
              · rw [List.take_succ_cons, run_cons, if_pos hs] at hrun
                exact hrun
              · simpa using hp
      · have heq : transport eng t s (o :: os) = stepOnce eng t s o := by
          simp only [transport, run_cons, if_pos hs, run_frozen eng t _ h1,
            if_neg h1]
        rw [heq]
        constructor
        · intro hc
          exact ⟨0, by simp, by simpa [List.take] using hs, hstep1.mp hc⟩
        · rintro ⟨n, hn, hrun, hp⟩
          cases n with
          | zero => exact hstep1.mpr (by simpa using hp)
          | succ m =>
              exfalso
              rw [List.take_succ_cons, run_cons, if_pos hs,
                run_frozen eng t _ h1] at hrun
              exact h1 hrun

/-- C6: after transport the status is BOUNDARY exactly when a step, taken in
flight, entered the explicit engine boundary, and EXIT exactly when such a
step left the outer geometry without entering the boundary; within a step
the boundary check precedes the exit check and both precede any
interaction. -/
theorem boundary_exit_semantics (eng : Engine) (target : ℚ) :
    (∀ (s : State) (o : Outcome), s.status = .inFlight →
      ((stepOnce eng target s o).status = .boundary ↔
        o.entersBoundary = true)) ∧
    (∀ (s : State) (o : Outcome), s.status = .inFlight →
      ((stepOnce eng target s o).status = .exit ↔
        (o.entersBoundary = false ∧ o.leavesGeometry = true))) ∧
    (∀ (s : State) (os : List Outcome), s.status = .inFlight →
      ((transport eng target s os).status = .boundary ↔
        ∃ (n : ℕ) (hn : n < os.length),
          (run eng target s (os.take n)).status = .inFlight ∧
          (os.get ⟨n, hn⟩).entersBoundary = true)) ∧
    (∀ (s : State) (os : List Outcome), s.status = .inFlight →
      ((transport eng target s os).status = .exit ↔
        ∃ (n : ℕ) (hn : n < os.length),
          (run eng target s (os.take n)).status = .inFlight ∧
          (os.get ⟨n, hn⟩).entersBoundary = false ∧
          (os.get ⟨n, hn⟩).leavesGeometry = true)) := by
  refine ⟨stepOnce_boundary_iff eng target, stepOnce_exit_iff eng target, ?_, ?_⟩
  · intro s os hs
    exact transport_status_iff eng target .boundary (fun o => o.entersBoundary)
      (by intro hcon; cases hcon) (by intro hcon; cases hcon)
      (stepOnce_boundary_iff eng target) os s hs
  · intro s os hs
    have h := transport_status_iff eng target .exit
      (fun o => !o.entersBoundary && o.leavesGeometry)
      (by intro hcon; cases hcon) (by intro hcon; cases hcon)
      (fun s o hs => by
        rw [stepOnce_exit_iff eng target s o hs]
        simp [Bool.and_eq_true, Bool.not_eq_true']) os s hs
    rw [h]
    constructor
    · rintro ⟨n, hn, hrun, hp⟩
      simp only [Bool.and_eq_true, Bool.not_eq_true'] at hp
      exact ⟨n, hn, hrun, hp.1, hp.2⟩
    · rintro ⟨n, hn, hrun, hp1, hp2⟩
      refine ⟨n, hn, hrun, ?_⟩
      simp only [Bool.and_eq_true, Bool.not_eq_true']
      exact ⟨hp1, hp2⟩

/-- Witness for C6: a step entering the boundary from an in-flight state. -/
theorem boundary_exit_semantics_witness :
    (stepOnce ⟨.forward, 1 / 100⟩ 0 ⟨⟨0, 0, 0⟩, ⟨0, 0, 1⟩, 1, 1, .inFlight⟩
      ⟨true, true, some .absorb, ⟨0, 0, 0⟩⟩).status = .boundary ↔
    (⟨true, true, some .absorb, ⟨0, 0, 0⟩⟩ : Outcome).entersBoundary = true :=
  (boundary_exit_semantics ⟨.forward, 1 / 100⟩ 0).1
    ⟨⟨0, 0, 0⟩, ⟨0, 0, 1⟩, 1, 1, .inFlight⟩
    ⟨true, true, some .absorb, ⟨0, 0, 0⟩⟩ rfl

/-- In both branches the sampler returns the source energy as the target. -/
theorem backwardSample_target (alpha emin source u1 u2 : ℝ) :
    (backwardSample alpha emin source u1 u2).target = source := by
  rw [backwardSample]
  split <;> rfl

/-- C2: with probability alpha (draw u1 < alpha) the sampler sets the final
energy to the source energy with weight 1/alpha; otherwise the final energy
is log-uniform on [E_min, source) (its log is an affine image of the uniform
draw) with weight log(source/E_min) * E_final / (1 - alpha); and the batch
form returns the vector of source energies. -/
theorem backwardSample_spec (alpha emin source u1 u2 : ℝ)
    (_halpha0 : 0 < alpha) (_halpha1 : alpha < 1) (hemin : 0 < emin)
    (hsource : emin < source) (hu0 : 0 ≤ u2) (hu1 : u2 < 1) :
    ((backwardSample alpha emin source u1 u2).target = source) ∧
    (u1 < alpha →
      (backwardSample alpha emin source u1 u2).energy = source ∧
      (backwardSample alpha emin source u1 u2).weight = 1 / alpha) ∧
    (¬u1 < alpha →
      emin ≤ (backwardSample alpha emin source u1 u2).energy ∧
      (backwardSample alpha emin source u1 u2).energy < source ∧
      Real.log (backwardSample alpha emin source u1 u2).energy =
        Real.log emin + u2 * Real.log (source / emin) ∧
      (backwardSample alpha emin source u1 u2).weight =
        Real.log (source / emin) *
          (backwardSample alpha emin source u1 u2).energy / (1 - alpha)) ∧
    (∀ ts : List (ℝ × ℝ × ℝ),
      (backwardSampleBatch alpha emin ts).map (fun b => b.target) =
        ts.map (fun t => t.1)) := by
  have hdivpos : 0 < source / emin := div_pos (lt_trans hemin hsource) hemin
  have hlne : 0 < Real.log (source / emin) :=
    Real.log_pos ((one_lt_div hemin).mpr hsource)
  refine ⟨backwardSample_target alpha emin source u1 u2, ?_, ?_, ?_⟩
  · intro hpk
    rw [backwardSample, if_pos hpk]
    exact ⟨rfl, rfl⟩
  · intro hbg
    rw [backwardSample, if_neg hbg]
    have hexp1 : 1 ≤ Real.exp (Real.log (source / emin) * u2) := by
      rw [show (1 : ℝ) = Real.exp 0 by rw [Real.exp_zero]]
      exact Real.exp_le_exp.mpr (mul_nonneg hlne.le hu0)
    refine ⟨?_, ?_, ?_, rfl⟩
    · calc emin = emin * 1 := (mul_one emin).symm
        _ ≤ emin * Real.exp (Real.log (source / emin) * u2) :=
            mul_le_mul_of_nonneg_left hexp1 hemin.le
    · have hlt : Real.log (source / emin) * u2 < Real.log (source / emin) :=
        mul_lt_of_lt_one_right hlne hu1
      calc emin * Real.exp (Real.log (source / emin) * u2)
          < emin * Real.exp (Real.log (source / emin)) :=
            mul_lt_mul_of_pos_left (Real.exp_lt_exp.mpr hlt) hemin
        _ = emin * (source / emin) := by rw [Real.exp_log hdivpos]
        _ = source := mul_div_cancel₀ source (ne_of_gt hemin)
    · rw [Real.log_mul (ne_of_gt hemin) (ne_of_gt (Real.exp_pos _)),
        Real.log_exp, mul_comm]
  · intro ts
    induction ts with
    | nil => rfl
    | cons t ts ih =>
        simp only [backwardSampleBatch, List.map_cons, List.map_map] at ih ⊢
        rw [backwardSample_target]
        exact congrArg _ ih

/-- Witness for C2 at alpha = 1/2, E_min = 1, source = 2, u2 = 1/2. -/
theorem backwardSample_spec_witness :
    ((backwardSample (1 / 2) 1 2 (3 / 4) (1 / 2)).target = 2) ∧
    ((3 : ℝ) / 4 < 1 / 2 →
      (backwardSample (1 / 2) 1 2 (3 / 4) (1 / 2)).energy = 2 ∧
      (backwardSample (1 / 2) 1 2 (3 / 4) (1 / 2)).weight = 1 / (1 / 2)) ∧
    (¬(3 : ℝ) / 4 < 1 / 2 →
      1 ≤ (backwardSample (1 / 2) 1 2 (3 / 4) (1 / 2)).energy ∧
      (backwardSample (1 / 2) 1 2 (3 / 4) (1 / 2)).energy < 2 ∧
      Real.log (backwardSample (1 / 2) 1 2 (3 / 4) (1 / 2)).energy =
        Real.log 1 + 1 / 2 * Real.log (2 / 1) ∧
      (backwardSample (1 / 2) 1 2 (3 / 4) (1 / 2)).weight =
        Real.log (2 / 1) *
          (backwardSample (1 / 2) 1 2 (3 / 4) (1 / 2)).energy / (1 - 1 / 2)) ∧
    (∀ ts : List (ℝ × ℝ × ℝ),
      (backwardSampleBatch (1 / 2) 1 ts).map (fun b => b.target) =
        ts.map (fun t => t.1)) :=
  backwardSample_spec (1 / 2) 1 2 (3 / 4) (1 / 2) (by norm_num) (by norm_num)
    (by norm_num) (by norm_num) (by norm_num) (by norm_num)

/-- The molar mass of water in the model, 18.015 g/mol. -/
theorem waterDef_mass : waterDef.mass = 3603 / 200 := by
  have h : ∑ z : Fin 119, waterDef.comp z * atomicA z =
      ∑ z ∈ ({⟨1, by norm_num⟩, ⟨8, by norm_num⟩} : Finset (Fin 119)),
        waterDef.comp z * atomicA z := by
    symm
    apply Finset.sum_subset (Finset.subset_univ _)
    intro z _ hz
    simp only [Finset.mem_insert, Finset.mem_singleton] at hz
    push_neg at hz
    have h1 : z.val ≠ 1 := fun hv => hz.1 (Fin.ext hv)
    have h8 : z.val ≠ 8 := fun hv => hz.2 (Fin.ext hv)
    simp [waterDef, h1, h8]
  rw [MaterialDef.mass, h, Finset.sum_pair (by decide)]
  norm_num [waterDef, atomicA, aWeights]

/-- C7: a material specified by mass fractions of sub-materials whose
canonical mole vectors agree within a tolerance resolves to a canonical mole
vector within the same tolerance of every sub-material; with equal
sub-material molar masses the resolved molar mass is exactly that mass, and
with exactly equal mole vectors the resolved vector is exactly that vector
(in particular a 0.5/0.5 mass mixture of two copies of water compares equal
to water in mole composition and mass). -/
theorem massMixture_resolves (n : ℕ) (hn : 0 < n) (w : Fin n → ℚ)
    (sub : Fin n → MaterialDef) (hw : ∀ i, 0 < w i)
    (hm : ∀ i, 0 < (sub i).mass) :
    (∀ eps : ℚ, 0 ≤ eps → (∀ i j, compClose eps (sub i) (sub j)) →
      ∀ j, compClose eps (massMixture n w sub) (sub j)) ∧
    ((∀ i j, (sub i).mass = (sub j).mass) →
      ∀ j, (massMixture n w sub).mass = (sub j).mass) ∧
    ((∀ i j, (sub i).comp = (sub j).comp) →
      ∀ j, (massMixture n w sub).comp = (sub j).comp) := by
  haveI : Nonempty (Fin n) := Fin.pos_iff_nonempty.mp hn
  set W := ∑ i, w i with hWdef
  have hW : 0 < W := Finset.sum_pos (fun i _ => hw i) Finset.univ_nonempty
  set D : Fin n → ℚ := fun i => w i / (W * (sub i).mass) with hDdef
  have hD : ∀ i, 0 < D i := fun i => div_pos (hw i) (mul_pos hW (hm i))
  set S := ∑ i, D i with hSdef
  have hS : 0 < S := Finset.sum_pos (fun i _ => hD i) Finset.univ_nonempty
  have hcompz : ∀ z, (massMixture n w sub).comp z =
      (1 / S) * ∑ i, D i * (sub i).comp z := fun z => rfl
  have hsum1 : ∑ i, 1 / S * D i = 1 := by
    rw [← Finset.mul_sum, ← hSdef, one_div, inv_mul_cancel₀ (ne_of_gt hS)]
  have hconv : ∀ eps : ℚ, 0 ≤ eps → (∀ i j, compClose eps (sub i) (sub j)) →
      ∀ j, compClose eps (massMixture n w sub) (sub j) := by
    intro eps heps hclose j z
    have hdiff : (massMixture n w sub).comp z - (sub j).comp z =
        ∑ i, 1 / S * D i * ((sub i).comp z - (sub j).comp z) := by
      have hsplit : ∑ i, 1 / S * D i * ((sub i).comp z - (sub j).comp z) =
          (∑ i, 1 / S * D i * (sub i).comp z) -
            (∑ i, 1 / S * D i) * (sub j).comp z := by
        simp_rw [mul_sub]
        rw [Finset.sum_sub_distrib, Finset.sum_mul]
      rw [hsplit, hsum1, one_mul, hcompz z, Finset.mul_sum]
      simp_rw [mul_assoc]
    calc |(massMixture n w sub).comp z - (sub j).comp z|
        = |∑ i, 1 / S * D i * ((sub i).comp z - (sub j).comp z)| := by rw [hdiff]
      _ ≤ ∑ i, |1 / S * D i * ((sub i).comp z - (sub j).comp z)| :=
          Finset.abs_sum_le_sum_abs _ _
      _ ≤ ∑ i, 1 / S * D i * eps := by
          refine Finset.sum_le_sum fun i _ => ?_
          have hpos : 0 < 1 / S * D i := mul_pos (one_div_pos.mpr hS) (hD i)
          rw [abs_mul, abs_of_nonneg hpos.le]
          exact mul_le_mul_of_nonneg_left (hclose i j z) hpos.le
      _ = eps := by rw [← Finset.sum_mul, hsum1, one_mul]
  refine ⟨hconv, ?_, ?_⟩
  · intro hmass j
    have hMi : ∀ i, (sub i).mass = (sub j).mass := fun i => hmass i j
    have hmassmix : (massMixture n w sub).mass =
        1 / S * ∑ i, D i * (sub i).mass := by
      rw [MaterialDef.mass]
      have hz : ∀ z, (massMixture n w sub).comp z * atomicA z =
          1 / S * ∑ i, D i * ((sub i).comp z * atomicA z) := by
        intro z
        rw [hcompz z, mul_assoc, Finset.sum_mul]
        simp_rw [mul_assoc]
      calc ∑ z, (massMixture n w sub).comp z * atomicA z
          = ∑ z, 1 / S * ∑ i, D i * ((sub i).comp z * atomicA z) :=
            Finset.sum_congr rfl fun z _ => hz z
        _ = 1 / S * ∑ z, ∑ i, D i * ((sub i).comp z * atomicA z) := by
            rw [Finset.mul_sum]
        _ = 1 / S * ∑ i, ∑ z, D i * ((sub i).comp z * atomicA z) := by
            rw [Finset.sum_comm]
        _ = 1 / S * ∑ i, D i * ∑ z, (sub i).comp z * atomicA z := by
            refine congrArg _ (Finset.sum_congr rfl fun i _ => ?_)
            rw [Finset.mul_sum]
        _ = 1 / S * ∑ i, D i * (sub i).mass := rfl
    have hterm : ∀ i, D i * (sub i).mass = w i / W := by
      intro i
      show w i / (W * (sub i).mass) * (sub i).mass = w i / W
      rw [div_mul_eq_mul_div, mul_comm W (sub i).mass, ← div_div,
        mul_div_cancel_right₀ _ (ne_of_gt (hm i))]
    have hsumW : ∑ i, w i / W = 1 := by
      rw [← Finset.sum_div]
      exact div_self (ne_of_gt hW)
    have hSval : S = 1 / (sub j).mass := by
      rw [hSdef]
      calc ∑ i, D i = ∑ i, w i / (W * (sub j).mass) := by
            refine Finset.sum_congr rfl fun i _ => ?_
            show w i / (W * (sub i).mass) = _
            rw [hMi i]
        _ = (∑ i, w i) / (W * (sub j).mass) := by rw [Finset.sum_div]
        _ = W / (W * (sub j).mass) := by rw [← hWdef]
        _ = 1 / (sub j).mass := by
            rw [div_mul_eq_div_div, div_self (ne_of_gt hW)]
    rw [hmassmix, hSval,
      show (∑ i, D i * (sub i).mass) = ∑ i, w i / W from
        Finset.sum_congr rfl fun i _ => hterm i,
      hsumW, mul_one, one_div_one_div]
  · intro hcomp j
    have hc0 : ∀ i k, compClose 0 (sub i) (sub k) := by
      intro i k z
      rw [hcomp i k, sub_self, abs_zero]
    have h := hconv 0 le_rfl hc0 j
    funext z
    have hz := h z
    rw [abs_nonpos_iff] at hz
    exact sub_eq_zero.mp hz

/-- Witness for C7: the 0.5/0.5 mass mixture of two copies of water. -/
theorem massMixture_resolves_witness :
    (∀ eps : ℚ, 0 ≤ eps →
      (∀ _ _ : Fin 2, compClose eps waterDef waterDef) →
      ∀ _ : Fin 2, compClose eps
        (massMixture 2 (fun _ => (1 : ℚ) / 2) fun _ => waterDef) waterDef) ∧
    ((∀ _ _ : Fin 2, waterDef.mass = waterDef.mass) →
      ∀ _ : Fin 2,
        (massMixture 2 (fun _ => (1 : ℚ) / 2) fun _ => waterDef).mass =
          waterDef.mass) ∧
    ((∀ _ _ : Fin 2, waterDef.comp = waterDef.comp) →
      ∀ _ : Fin 2,
        (massMixture 2 (fun _ => (1 : ℚ) / 2) fun _ => waterDef).comp =
          waterDef.comp) :=
  massMixture_resolves 2 (by norm_num) (fun _ => 1 / 2) (fun _ => waterDef)
    (fun _ => by norm_num) (fun _ => by rw [waterDef_mass]; norm_num)

end Goupil
